import Mathlib

/-!
# Verification of the dice probability modeler

Shallow embedding of `dice_probability_modeler.py`:

* `hypergeometric_pmf`, `hypergeometric_cdf` — the hypergeometric calculator;
* `validate_distro` with its enumeration pipeline (`rolls`, `sums`,
  `distroKeys`, `freq`, `distroList`, `scan`) — the threshold locator;
* `cwr`, `solutionsAt`, `findDiceAux`, `find_dice` — the combination search;
* `find_dice_st` — a state-passing variant of the search that threads the
  Python-level `dice_set` list explicitly, for the frame property.

Modelling conventions: Python ints are `ℕ`/`ℤ`; a Python function that can
raise becomes `Except String`; a function that can fall off the end without
a `return` (Python's implicit `None`) returns `Option`.  Python floats are
modelled as exact rationals `ℚ`; the one place the source does float
arithmetic on integer data (`target_cases` in `validate_distro`) is modelled
by its exact integer value, and the divergence of IEEE doubles from that
exact value at large inputs is treated separately
(`target_cases_not_double_representable`).
-/

deriving instance DecidableEq for Except

namespace DiceModeler

/-- Result of `hypergeometric_pmf`.  The Python function returns a bare float
`0.0` on one path (`scalar`) and a 3-tuple `(p_value, numerator, denominator)`
on the other (`triple`); both shapes are kept so that downstream subscripting
behaviour can be modelled faithfully. -/
inductive PmfResult where
  | scalar (p : ℚ)
  | triple (p : ℚ) (numerator denominator : ℕ)
deriving DecidableEq, Repr

/-- Python's `math.comb`: raises `ValueError` on negative arguments, returns
`C(n, k)` (which is `0` when `k > n`) otherwise. -/
def comb (n k : ℤ) : Except String ℕ :=
  if n < 0 ∨ k < 0 then .error "ValueError: comb requires non-negative arguments"
  else .ok (n.toNat.choose k.toNat)

/-- `hypergeometric_pmf(total_population, total_successes, draws,
target_successes)` from the source: validates parameters, returns the bare
scalar `0.0` for impossible targets, otherwise the triple
`(p_value, numerator, denominator)` with the fraction reduced by the gcd of
the raw combinatorial numerator and denominator.  The `t3 = 0` case mirrors
Python's `ZeroDivisionError`; it is unreachable after the guards. -/
def hypergeometric_pmf (total_population total_successes draws target_successes : ℤ) :
    Except String PmfResult :=
  if total_successes > total_population ∨ draws > total_population ∨
      total_population < 1 then
    .error "Invalid Parameters"
  else if target_successes > draws ∨ target_successes > total_successes ∨
      target_successes < 0 then
    .ok (.scalar 0)
  else
    match comb total_successes target_successes,
        comb (total_population - total_successes) (draws - target_successes),
        comb total_population draws with
    | .error e, _, _ => .error e
    | .ok _, .error e, _ => .error e
    | .ok _, .ok _, .error e => .error e
    | .ok t1, .ok t2, .ok t3 =>
      if t3 = 0 then .error "ZeroDivisionError: division by zero"
      else
        let g := Nat.gcd (t1 * t2) t3
        .ok (.triple ((t1 * t2 : ℚ) / (t3 : ℚ)) ((t1 * t2) / g) (t3 / g))

/-- Python's `range(a, b)` over the integers, as a list. -/
def intRange (a b : ℤ) : List ℤ :=
  (List.range (b - a).toNat).map (fun i => a + i)

/-- The `k_values` selected by the `inequality` token in `hypergeometric_cdf`;
an unrecognized token raises `ValueError("Invalid Inequality Option")`. -/
def k_values (draws total_successes target_successes : ℤ) (inequality : String) :
    Except String (List ℤ) :=
  let max_successes := min draws total_successes
  if inequality = "eq" then .ok [target_successes]
  else if inequality = "lte" then .ok (intRange 0 (target_successes + 1))
  else if inequality = "lt" then .ok (intRange 0 target_successes)
  else if inequality = "gte" then .ok (intRange target_successes (max_successes + 1))
  else if inequality = "gt" then .ok (intRange (target_successes + 1) (max_successes + 1))
  else if inequality = "neq" then
    .ok (intRange 0 target_successes ++ intRange (target_successes + 1) (max_successes + 1))
  else .error "Invalid Inequality Option"

/-- The source's `hypergeometric_pmf(...)[0]`: subscripting the triple yields
`p_value`, subscripting the bare float raises `TypeError`. -/
def subscriptZero : PmfResult → Except String ℚ
  | .scalar _ => .error "TypeError: float object is not subscriptable"
  | .triple p _ _ => .ok p

/-- `hypergeometric_cdf` from the source: builds `k_values` from the
`inequality` token, evaluates `hypergeometric_pmf(...)[0]` for each `k` in
order (propagating the first raised error), and sums the outcomes. -/
def hypergeometric_cdf (total_population total_successes draws target_successes : ℤ)
    (inequality : String) : Except String ℚ := do
  let ks ← k_values draws total_successes target_successes inequality
  let outcomes ← ks.mapM (fun k => do
    let r ← hypergeometric_pmf total_population total_successes draws k
    subscriptZero r)
  return outcomes.sum


/-! ## Threshold locator (`validate_distro`) -/

/-- `num_cases` from the source: `num_cases = 1; for d in dice: num_cases *= d`. -/
def num_cases (dice : List ℕ) : ℕ := dice.foldl (· * ·) 1

/-- The `target_cases` computed inside `validate_distro`, as its exact integer
value `numerator * num_cases // denominator`.  The source computes it with
Python float division `/`; past the divisibility guard the true quotient is an
integer, so the two agree exactly whenever that integer is representable as an
IEEE double (see `target_cases_not_double_representable` for the divergence). -/
def target_cases (numerator denominator : ℕ) (dice : List ℕ) : ℕ :=
  numerator * num_cases dice / denominator

/-- `itertools.product(*[range(1, d + 1) for d in dice])`: every outcome tuple,
last die varying fastest. -/
def rolls : List ℕ → List (List ℕ)
  | [] => [[]]
  | d :: rest => (List.range' 1 d).flatMap (fun f => (rolls rest).map (f :: ·))

/-- The multiset of roll sums, `[sum(roll) for roll in rolls]`. -/
def sums (dice : List ℕ) : List ℕ := (rolls dice).map (·.sum)

/-- The occurrence count of sum `s` in the enumeration — `Counter`s value at
key `s`. -/
def freq (dice : List ℕ) (s : ℕ) : ℕ := (sums dice).count s

/-- The distinct keys of the `Counter`, in descending order, as produced by
`sorted(distro.items(), reverse=True)`.  Every roll sum is at most
`dice.sum` (each face of die `d` is at most `d`), so filtering
`range (dice.sum + 1)` by membership in `sums` and reversing yields exactly
the sorted distinct keys. -/
def distroKeys (dice : List ℕ) : List ℕ :=
  ((List.range (dice.sum + 1)).filter (fun s => s ∈ sums dice)).reverse

/-- The sorted `(sum, count)` item list scanned by `validate_distro`. -/
def distroList (dice : List ℕ) : List (ℕ × ℕ) :=
  (distroKeys dice).map (fun s => (s, freq dice s))

/-- The scan loop of `validate_distro`: accumulate `cum_cases`; return the
current key on exact hit, the sentinel `0` on overshoot, and Python's implicit
`None` if the list is exhausted. -/
def scan (target : ℕ) : ℕ → List (ℕ × ℕ) → Option ℕ
  | _, [] => none
  | cum_cases, (threshold, f) :: rest =>
    let c := cum_cases + f
    if c = target then some threshold
    else if c > target then some 0
    else scan target c rest

/-- `validate_distro(numerator, denominator, dice)` from the source.  `some t`
models `return t`; `none` models falling off the loop (Python returns `None`).
The caller-side domain always has `denominator ≥ 1` (Python would raise on
`denominator = 0` in the `%` guard, which is outside the modelled domain). -/
def validate_distro (numerator denominator : ℕ) (dice : List ℕ) : Option ℕ :=
  if num_cases dice % denominator ≠ 0 then some 0
  else scan (target_cases numerator denominator dice) 0 (distroList dice)


/-! ## Combination search (`find_dice`) -/

/-- The module-level default die set `RPG_DICE_SET = [4, 6, 8, 10, 12, 20]`. -/
def RPG_DICE_SET : List ℕ := [4, 6, 8, 10, 12, 20]

/-- Helper for `cwr`, structurally recursive in the size: selections from
`a :: rest` where `f` already enumerates selections from `rest`. -/
def cwrCons (a : ℕ) (f : ℕ → List (List ℕ)) : ℕ → List (List ℕ)
  | 0 => [[]]
  | n + 1 => ((cwrCons a f n).map (a :: ·)) ++ f (n + 1)

/-- `itertools.combinations_with_replacement(s, n)`: all selections of `n`
elements from `s` with non-decreasing indices, in lexicographic index order.
Satisfies `cwr s 0 = [[]]`, `cwr [] (n+1) = []`, and
`cwr (a :: rest) (n+1) = (cwr (a :: rest) n).map (a :: ·) ++ cwr rest (n+1)`
definitionally. -/
def cwr : List ℕ → ℕ → List (List ℕ)
  | [], 0 => [[]]
  | [], _ + 1 => []
  | a :: rest, n => cwrCons a (cwr rest) n


/-- The inner `for` loop of `find_dice` at one combination size `N`: every
generated combination whose `validate_distro` result is truthy (neither
Python `None` nor `0`), paired with its threshold, in generation order. -/
def solutionsAt (numerator denominator : ℕ) (dice_set : List ℕ) (N : ℕ) :
    List (List ℕ × ℕ) :=
  (cwr dice_set N).filterMap (fun dice =>
    match validate_distro numerator denominator dice with
    | some t => if t = 0 then none else some (dice, t)
    | none => none)

/-- The `while N <= limit and not solutions` loop of `find_dice`: `fuel` is
the number of sizes still allowed (`limit - N + 1`). -/
def findDiceAux (numerator denominator : ℕ) (dice_set : List ℕ) :
    ℕ → ℕ → List (List ℕ × ℕ)
  | 0, _ => []
  | fuel + 1, N =>
    let solutions := solutionsAt numerator denominator dice_set N
    if solutions = [] then findDiceAux numerator denominator dice_set fuel (N + 1)
    else solutions

/-- `find_dice(p_value, numerator, denominator, dice_set, limit)` from the
source.  `p_value` is unused by the source body and is omitted. -/
def find_dice (numerator denominator : ℕ) (dice_set : List ℕ) (limit : ℕ) :
    List (List ℕ × ℕ) :=
  findDiceAux numerator denominator dice_set limit 1


/-- State-passing embedding of one size-`N` pass for the frame property: the
Python list bound to `dice_set` is threaded as explicit state.  The source
only reads `dice_set` (`combinations_with_replacement` iterates it; nothing
assigns to it or calls a mutating method on it), so the translated step
returns the state it received. -/
def solutionsAtSt (numerator denominator : ℕ) (N : ℕ) (dice_set : List ℕ) :
    List (List ℕ × ℕ) × List ℕ :=
  (solutionsAt numerator denominator dice_set N, dice_set)

/-- State-passing embedding of the `while` loop of `find_dice`. -/
def findDiceAuxSt (numerator denominator : ℕ) :
    ℕ → ℕ → List ℕ → List (List ℕ × ℕ) × List ℕ
  | 0, _, dice_set => ([], dice_set)
  | fuel + 1, N, dice_set =>
    let r := solutionsAtSt numerator denominator N dice_set
    if r.1 = [] then findDiceAuxSt numerator denominator fuel (N + 1) r.2
    else r

/-- State-passing embedding of `find_dice`: returns the solution list together
with the `dice_set` list as it stands after the call. -/
def find_dice_st (numerator denominator : ℕ) (limit : ℕ) (dice_set : List ℕ) :
    List (List ℕ × ℕ) × List ℕ :=
  findDiceAuxSt numerator denominator limit 1 dice_set

/-! ## Theorems -/

example : hypergeometric_pmf 10 5 2 3 = .ok (.scalar 0) := rfl
example : hypergeometric_pmf 5 6 2 1 = .error "Invalid Parameters" := rfl
example : validate_distro 1 6 [6, 6] = some 10 := by decide
example : validate_distro 2 1 [2] = none := by decide
example : validate_distro 1 2 [2] = some 2 := by decide
example : validate_distro 1 7 [6, 6] = some 0 := by decide
example : cwr [4, 6] 2 = [[4, 4], [4, 6], [6, 6]] := by decide
example : find_dice 1 2 [2] 5 = [([2], 2)] := by decide


/-- C2: `validate_distro(2, 1, [2])` passes the divisibility guard
(`2 % 1 = 0`), targets `2 * 2 / 1 = 4` cases, exhausts the descending scan
(cumulative count never exceeds `2`), and falls off the loop returning
Python's `None` — not the integer `0` promised by its own docstring and the
spec for the no-threshold case. -/
theorem validate_distro_falls_through_none :
    validate_distro 2 1 [2] = none ∧ num_cases [2] % 1 = 0 ∧
      target_cases 2 1 [2] = 4 := by decide

/-- C3: for `targetSuccesses = 3 > draws = 2` the source returns the bare
float `0.0`, not a `(probability, numerator, denominator)` triple: no triple
value is the result of this call. -/
theorem pmf_scalar_not_triple :
    hypergeometric_pmf 10 5 2 3 = .ok (.scalar 0) ∧
      ∀ p : ℚ, ∀ num den : ℕ,
        hypergeometric_pmf 10 5 2 3 ≠ .ok (.triple p num den) := by
  refine ⟨rfl, fun p num den h => ?_⟩
  rw [show hypergeometric_pmf 10 5 2 3 = .ok (.scalar 0) from rfl] at h
  exact absurd h (by simp)

/-- C5: for 35 three-sided dice and target fraction 1/3 the exact target
count is `3 ^ 34`, which exceeds `2 ^ 53` and is odd, hence is not the value
of any IEEE-754 double (`m * 2 ^ e` with mantissa `m < 2 ^ 53`): the float
division `numerator * num_cases / denominator` in the source cannot produce
the exact integer that the claim requires the comparison to use. -/
theorem target_cases_not_double_representable :
    target_cases 1 3 (List.replicate 35 3) = 3 ^ 34 ∧ 2 ^ 53 < 3 ^ 34 ∧
      ∀ m e : ℕ, m < 2 ^ 53 → m * 2 ^ e ≠ 3 ^ 34 := by
  refine ⟨by decide, by norm_num, fun m e hm heq => ?_⟩
  cases e with
  | zero =>
    rw [pow_zero, mul_one] at heq
    subst heq
    have : (2 : ℕ) ^ 53 < 3 ^ 34 := by norm_num
    omega
  | succ e =>
    have hdvd : 2 ∣ 3 ^ 34 := ⟨m * 2 ^ e, by rw [← heq]; ring⟩
    have hmod : (3 : ℕ) ^ 34 % 2 = 0 := Nat.dvd_iff_mod_eq_zero.mp hdvd
    have hodd : (3 : ℕ) ^ 34 % 2 = 1 := by norm_num
    omega

/-- C8: for two six-sided dice and target fraction 1/6 the counts of sums 12,
11, 10 are 1, 2, 3, the target count is `1 * 36 / 6 = 6`, and
`validate_distro` returns the threshold 10. -/
theorem validate_distro_two_d6 :
    validate_distro 1 6 [6, 6] = some 10 ∧ freq [6, 6] 12 = 1 ∧
      freq [6, 6] 11 = 2 ∧ freq [6, 6] 10 = 3 ∧ target_cases 1 6 [6, 6] = 6 := by
  decide

/-- The state-passing search loop returns its `dice_set` state unchanged and
computes the same solution list as the plain embedding. -/
theorem findDiceAuxSt_spec (numerator denominator : ℕ) :
    ∀ fuel N dice_set,
      findDiceAuxSt numerator denominator fuel N dice_set
        = (findDiceAux numerator denominator dice_set fuel N, dice_set) := by
  intro fuel
  induction fuel with
  | zero => intro N dice_set; rfl
  | succ fuel ih =>
    intro N dice_set
    show (if solutionsAt numerator denominator dice_set N = [] then
        findDiceAuxSt numerator denominator fuel (N + 1) dice_set
      else (solutionsAt numerator denominator dice_set N, dice_set)) = _
    rw [findDiceAux]
    by_cases h : solutionsAt numerator denominator dice_set N = []
    · simp only [if_pos h, ih]
    · simp only [if_neg h]

/-- C10: `find_dice` never mutates its `dice_set` argument — in the
state-passing embedding the list comes back unchanged — and a repeated call
starting from the returned state produces the same solution list. -/
theorem find_dice_no_mutation (numerator denominator limit : ℕ) (dice_set : List ℕ) :
    (find_dice_st numerator denominator limit dice_set).2 = dice_set ∧
      (find_dice_st numerator denominator limit dice_set).1
        = find_dice numerator denominator dice_set limit ∧
      (find_dice_st numerator denominator limit
          ((find_dice_st numerator denominator limit dice_set).2)).1
        = (find_dice_st numerator denominator limit dice_set).1 := by
  simp [find_dice_st, find_dice, findDiceAuxSt_spec]

/-- On valid hypergeometric inputs with a feasible target, `hypergeometric_pmf`
returns the triple built from the three binomial coefficients, with the
fraction reduced by their gcd. -/
theorem pmf_valid_eq (total_population total_successes draws target_successes : ℤ)
    (hKN : total_successes ≤ total_population) (hnN : draws ≤ total_population)
    (hN : 1 ≤ total_population) (hk0 : 0 ≤ target_successes)
    (hkn : target_successes ≤ draws) (hkK : target_successes ≤ total_successes) :
    hypergeometric_pmf total_population total_successes draws target_successes
      = .ok (.triple
          ((total_successes.toNat.choose target_successes.toNat *
              (total_population - total_successes).toNat.choose
                (draws - target_successes).toNat : ℚ) /
            (total_population.toNat.choose draws.toNat : ℚ))
          ((total_successes.toNat.choose target_successes.toNat *
              (total_population - total_successes).toNat.choose
                (draws - target_successes).toNat) /
            Nat.gcd
              (total_successes.toNat.choose target_successes.toNat *
                (total_population - total_successes).toNat.choose
                  (draws - target_successes).toNat)
              (total_population.toNat.choose draws.toNat))
          ((total_population.toNat.choose draws.toNat) /
            Nat.gcd
              (total_successes.toNat.choose target_successes.toNat *
                (total_population - total_successes).toNat.choose
                  (draws - target_successes).toNat)
              (total_population.toNat.choose draws.toNat))) := by
  have ht3 : total_population.toNat.choose draws.toNat ≠ 0 :=
    Nat.pos_iff_ne_zero.mp (Nat.choose_pos (Int.toNat_le_toNat hnN))
  unfold hypergeometric_pmf
  rw [if_neg (by omega), if_neg (by omega)]
  have hc1 : comb total_successes target_successes
      = .ok (total_successes.toNat.choose target_successes.toNat) := by
    unfold comb; rw [if_neg (by omega)]
  have hc2 : comb (total_population - total_successes) (draws - target_successes)
      = .ok ((total_population - total_successes).toNat.choose
          (draws - target_successes).toNat) := by
    unfold comb; rw [if_neg (by omega)]
  have hc3 : comb total_population draws
      = .ok (total_population.toNat.choose draws.toNat) := by
    unfold comb; rw [if_neg (by omega)]
  rw [hc1, hc2, hc3]
  simp only [if_neg ht3]

/-- C7: `hypergeometric_pmf` fails with an error exactly when
`successes > population`, `draws > population`, or `population < 1`; every
other integer input yields a returned value. -/
theorem pmf_error_iff (total_population total_successes draws target_successes : ℤ) :
    (∃ e, hypergeometric_pmf total_population total_successes draws target_successes
        = .error e) ↔
      (total_successes > total_population ∨ draws > total_population ∨
        total_population < 1) := by
  constructor
  · rintro ⟨e, he⟩
    by_contra h1
    by_cases h2 : target_successes > draws ∨ target_successes > total_successes ∨
        target_successes < 0
    · rw [hypergeometric_pmf] at he
      rw [if_neg h1, if_pos h2] at he
      exact Except.noConfusion he
    · push_neg at h1 h2
      obtain ⟨hKN, hnN, hN⟩ := h1
      obtain ⟨hkn, hkK, hk0⟩ := h2
      rw [pmf_valid_eq total_population total_successes draws target_successes
        hKN hnN (by omega) hk0 hkn hkK] at he
      exact Except.noConfusion he
  · intro h1
    exact ⟨"Invalid Parameters", by rw [hypergeometric_pmf, if_pos h1]⟩

/-- C6: on every valid input with `0 ≤ targetSuccesses ≤ min(draws, successes)`
the returned fraction is reduced (`gcd = 1`, denominator nonzero) and equals
`C(successes, target) * C(population - successes, draws - target) /
C(population, draws)` exactly as a rational number. -/
theorem pmf_fraction_reduced_exact
    (total_population total_successes draws target_successes : ℤ)
    (hKN : total_successes ≤ total_population) (hnN : draws ≤ total_population)
    (hN : 1 ≤ total_population) (hk0 : 0 ≤ target_successes)
    (hkn : target_successes ≤ draws) (hkK : target_successes ≤ total_successes) :
    ∃ p : ℚ, ∃ numerator denominator : ℕ,
      hypergeometric_pmf total_population total_successes draws target_successes
          = .ok (.triple p numerator denominator) ∧
        Nat.gcd numerator denominator = 1 ∧ denominator ≠ 0 ∧
        (numerator : ℚ) / (denominator : ℚ)
          = (total_successes.toNat.choose target_successes.toNat *
              (total_population - total_successes).toNat.choose
                (draws - target_successes).toNat : ℚ) /
            (total_population.toNat.choose draws.toNat : ℚ) := by
  set t1 := total_successes.toNat.choose target_successes.toNat with ht1def
  set t2 := (total_population - total_successes).toNat.choose
    (draws - target_successes).toNat with ht2def
  set t3 := total_population.toNat.choose draws.toNat with ht3def
  have ht3 : 0 < t3 := Nat.choose_pos (Int.toNat_le_toNat hnN)
  set g := Nat.gcd (t1 * t2) t3 with hgdef
  have hg : 0 < g := Nat.gcd_pos_of_pos_right _ ht3
  refine ⟨((t1 * t2 : ℚ)) / (t3 : ℚ), (t1 * t2) / g, t3 / g,
    pmf_valid_eq total_population total_successes draws target_successes
      hKN hnN hN hk0 hkn hkK, Nat.coprime_div_gcd_div_gcd hg, ?_, ?_⟩
  · exact Nat.pos_iff_ne_zero.mp
      (Nat.div_pos (Nat.le_of_dvd ht3 (Nat.gcd_dvd_right _ _)) hg)
  · have hgq : (g : ℚ) ≠ 0 := Nat.cast_ne_zero.mpr (Nat.pos_iff_ne_zero.mp hg)
    have ht3q : (t3 : ℚ) ≠ 0 := Nat.cast_ne_zero.mpr (Nat.pos_iff_ne_zero.mp ht3)
    rw [Nat.cast_div (Nat.gcd_dvd_left (t1 * t2) t3) hgq,
      Nat.cast_div (Nat.gcd_dvd_right (t1 * t2) t3) hgq]
    push_cast
    field_simp

/-- Closed-form witness for `pmf_fraction_reduced_exact` at the demonstration
input `pmf(10, 5, 2, 2)`. -/
theorem pmf_fraction_reduced_exact_witness :
    ((5 : ℤ) ≤ 10 ∧ (2 : ℤ) ≤ 10 ∧ (1 : ℤ) ≤ 10 ∧ (0 : ℤ) ≤ 2 ∧
        (2 : ℤ) ≤ 2 ∧ (2 : ℤ) ≤ 5) ∧
      ∃ p : ℚ, ∃ numerator denominator : ℕ,
        hypergeometric_pmf 10 5 2 2 = .ok (.triple p numerator denominator) ∧
          Nat.gcd numerator denominator = 1 ∧ denominator ≠ 0 ∧
          (numerator : ℚ) / (denominator : ℚ)
            = ((5 : ℤ).toNat.choose (2 : ℤ).toNat *
                ((10 : ℤ) - 5).toNat.choose ((2 : ℤ) - 2).toNat : ℚ) /
              ((10 : ℤ).toNat.choose (2 : ℤ).toNat : ℚ) :=
  ⟨by norm_num,
    pmf_fraction_reduced_exact 10 5 2 2 (by norm_num) (by norm_num) (by norm_num)
      (by norm_num) (by norm_num) (by norm_num)⟩

/-- C4: `hypergeometric_cdf(10, 5, 2, 3, "lte")` uses the recognized relation
`lte` yet raises: `k = 3` exceeds `min(draws, successes)`, so
`hypergeometric_pmf` returns the bare float `0.0` and the `[0]` subscript
fails with `TypeError`.  An unrecognized token raises
`Invalid Inequality Option` as claimed. -/
theorem cdf_raises_on_recognized_relation :
    hypergeometric_cdf 10 5 2 3 "lte"
        = .error "TypeError: float object is not subscriptable" ∧
      hypergeometric_cdf 10 5 2 2 "approx" = .error "Invalid Inequality Option" :=
  ⟨rfl, rfl⟩

/-! ### Counting the enumeration -/

/-- Summing the multiplicities of the distinct values satisfying `p` counts
the elements satisfying `p`. -/
theorem sum_count_filter_toFinset (v : List ℕ) (p : ℕ → Bool) :
    ∑ s ∈ v.toFinset.filter (fun s => p s = true), v.count s = v.countP p := by
  have key := Multiset.toFinset_sum_count_eq (↑(v.filter p) : Multiset ℕ)
  have h1 : (↑(v.filter p) : Multiset ℕ).toFinset
      = v.toFinset.filter (fun s => p s = true) := by
    rw [List.toFinset_coe]
    exact List.toFinset_filter v p
  have h2 : Multiset.card (↑(v.filter p) : Multiset ℕ) = v.countP p := by
    rw [Multiset.coe_card, List.countP_eq_length_filter]
  rw [h1, h2] at key
  rw [← key]
  refine Finset.sum_congr rfl (fun s hs => ?_)
  have hps : p s = true := (Finset.mem_filter.mp hs).2
  rw [Multiset.coe_count, List.count_filter hps]

/-- For a duplicate-free list `ks` of exactly the values of `v`, summing
`v.count` over the members of `ks` satisfying `p` counts the elements of `v`
satisfying `p`. -/
theorem sum_map_count_filter (ks v : List ℕ) (p : ℕ → Bool) (hnd : ks.Nodup)
    (hmem : ∀ s, s ∈ ks ↔ s ∈ v) :
    ((ks.filter p).map (fun s => v.count s)).sum = v.countP p := by
  rw [← List.sum_toFinset _ (hnd.filter p), List.toFinset_filter]
  have hks : ks.toFinset = v.toFinset := by
    ext s
    simp only [List.mem_toFinset]
    exact hmem s
  rw [hks]
  exact sum_count_filter_toFinset v p

/-- The enumeration produces exactly `num_cases` outcome tuples. -/
theorem length_rolls (dice : List ℕ) : (rolls dice).length = num_cases dice := by
  rw [num_cases, ← List.prod_eq_foldl]
  induction dice with
  | nil => rfl
  | cons d rest ih =>
    rw [rolls, List.length_flatMap, List.prod_cons]
    have hmap : (List.range' 1 d).map (List.length ∘ fun f => (rolls rest).map (f :: ·))
        = List.replicate d rest.prod := by
      rw [show (List.length ∘ fun f : ℕ => (rolls rest).map (f :: ·))
          = fun _ : ℕ => rest.prod from funext (fun f => by
        simp only [Function.comp_apply, List.length_map, ih])]
      rw [List.map_const', List.length_range']
    rw [hmap, List.sum_replicate, smul_eq_mul]

/-- Every outcome tuple's sum lies between the number of dice (all faces are
at least 1) and the sum of the face counts. -/
theorem sum_bounds_of_mem_rolls :
    ∀ (dice r : List ℕ), r ∈ rolls dice → dice.length ≤ r.sum ∧ r.sum ≤ dice.sum := by
  intro dice
  induction dice with
  | nil =>
    intro r h
    rw [rolls, List.mem_singleton] at h
    subst h
    exact ⟨le_refl 0, le_refl 0⟩
  | cons d rest ih =>
    intro r h
    rw [rolls, List.mem_flatMap] at h
    obtain ⟨f, hf, hr⟩ := h
    obtain ⟨r1, hr1, rfl⟩ := List.mem_map.mp hr
    have hfb := List.mem_range'_1.mp hf
    have hb := ih r1 hr1
    simp only [List.sum_cons, List.length_cons]
    omega

/-- The scanned key list contains exactly the sums that occur. -/
theorem mem_distroKeys (dice : List ℕ) (s : ℕ) :
    s ∈ distroKeys dice ↔ s ∈ sums dice := by
  rw [distroKeys, List.mem_reverse, List.mem_filter]
  constructor
  · intro h
    simpa using h.2
  · intro h
    refine ⟨List.mem_range.mpr ?_, by simpa⟩
    obtain ⟨r, hr, rfl⟩ := List.mem_map.mp h
    have hb := (sum_bounds_of_mem_rolls dice r hr).2
    omega

/-- The scanned key list is strictly descending. -/
theorem distroKeys_pairwise (dice : List ℕ) :
    List.Pairwise (· > ·) (distroKeys dice) := by
  rw [distroKeys, List.pairwise_reverse]
  exact (List.pairwise_lt_range _).filter _

/-- The scanned key list has no duplicate keys. -/
theorem distroKeys_nodup (dice : List ℕ) : (distroKeys dice).Nodup :=
  (distroKeys_pairwise dice).imp (fun h => ne_of_gt h)

/-- If the scan returns a non-sentinel value `t`, then `t` heads a split of
the item list whose accumulated counts up to and including `t` reach the
target exactly. -/
theorem scan_some_of_ne_zero (target : ℕ) :
    ∀ (l : List (ℕ × ℕ)) (cum t : ℕ), scan target cum l = some t → t ≠ 0 →
      ∃ pre f post, l = pre ++ (t, f) :: post ∧
        cum + (((pre.map Prod.snd).sum) + f) = target := by
  intro l
  induction l with
  | nil =>
    intro cum t h ht
    exact absurd h (by rw [scan]; exact Option.noConfusion)
  | cons hd rest ih =>
    intro cum t h ht
    obtain ⟨k, f⟩ := hd
    rw [scan] at h
    by_cases h1 : cum + f = target
    · rw [if_pos h1] at h
      refine ⟨[], f, rest, ?_, ?_⟩
      · rw [Option.some_inj.mp h, List.nil_append]
      · simpa using h1
    · rw [if_neg h1] at h
      by_cases h2 : cum + f > target
      · rw [if_pos h2] at h
        exact absurd (Option.some_inj.mp h).symm ht
      · rw [if_neg h2] at h
        obtain ⟨pre, f1, post, heq, hsum⟩ := ih (cum + f) t h ht
        refine ⟨(k, f) :: pre, f1, post, by rw [heq, List.cons_append], ?_⟩
        simp only [List.map_cons, List.sum_cons] at hsum ⊢
        omega

/-- Threshold-locator invariants of the exact-arithmetic model: whenever the
embedded `validate_distro` returns a non-zero threshold `t` for a combination
of dice with at least two faces each, `t` lies in the achievable sum range,
the outcome tuples with sum at least `t` number exactly
`numerator * num_cases / denominator` (an exact division), the scanned
distribution's counts sum to the product of the face counts, and every key
lies in the achievable sum range.  These invariants hold of the embedding's
exact integer `target_cases` only: the program computes the target with float
division, and `validate_distro_float_target_mismatch` exhibits an input where
the rounded double makes the program return a threshold violating the exact
count property. -/
theorem validate_distro_invariants (numerator denominator : ℕ) (dice : List ℕ) (t : ℕ)
    (hfaces : ∀ d ∈ dice, 2 ≤ d)
    (hv : validate_distro numerator denominator dice = some t) (ht : t ≠ 0) :
    dice.length ≤ t ∧ t ≤ dice.sum ∧ denominator ∣ num_cases dice ∧
      (rolls dice).countP (fun r => t ≤ r.sum)
        = numerator * num_cases dice / denominator ∧
      ((distroList dice).map Prod.snd).sum = num_cases dice ∧
      ∀ q ∈ distroList dice, dice.length ≤ q.1 ∧ q.1 ≤ dice.sum := by
  rw [validate_distro] at hv
  by_cases hg : num_cases dice % denominator ≠ 0
  · rw [if_pos hg] at hv
    exact absurd (Option.some_inj.mp hv).symm ht
  rw [if_neg hg] at hv
  push_neg at hg
  have hdvd : denominator ∣ num_cases dice := Nat.dvd_of_mod_eq_zero hg
  obtain ⟨pre, f, post, hsplit, hsum⟩ := scan_some_of_ne_zero _ _ _ _ hv ht
  rw [Nat.zero_add] at hsum
  rw [show distroList dice = (distroKeys dice).map (fun s => (s, freq dice s))
    from rfl] at hsplit
  obtain ⟨l1, l2, hkeys, hl1, hl2⟩ := List.map_eq_append_iff.mp hsplit
  cases l2 with
  | nil => exact absurd hl2 (by simp)
  | cons k krest =>
    simp only [List.map_cons, List.cons.injEq, Prod.mk.injEq] at hl2
    obtain ⟨⟨hk, hf⟩, hpost⟩ := hl2
    rw [hk] at hkeys hf
    -- the returned threshold is an occurring sum
    have htmem : t ∈ sums dice := (mem_distroKeys dice t).mp (by
      rw [hkeys]
      exact List.mem_append_right _ (List.mem_cons_self _ _))
    obtain ⟨r, hr, hrt⟩ := List.mem_map.mp htmem
    have hbounds := sum_bounds_of_mem_rolls dice r hr
    -- order facts along the split of the key list
    have hpw := distroKeys_pairwise dice
    rw [hkeys, List.pairwise_append] at hpw
    obtain ⟨hpw1, hpw2, hcross⟩ := hpw
    have hkrest : ∀ b ∈ krest, t > b := (List.pairwise_cons.mp hpw2).1
    have hl1gt : ∀ a ∈ l1, a > t :=
      fun a ha => hcross a ha t (List.mem_cons_self _ _)
    -- the keys at least t are exactly l1 ++ [t]
    have hfilter : (distroKeys dice).filter (fun s => decide (t ≤ s)) = l1 ++ [t] := by
      rw [hkeys, List.filter_append]
      have e1 : l1.filter (fun s => decide (t ≤ s)) = l1 :=
        List.filter_eq_self.mpr (fun a ha =>
          decide_eq_true (le_of_lt (hl1gt a ha)))
      have e2 : (t :: krest).filter (fun s => decide (t ≤ s)) = [t] := by
        rw [List.filter_cons_of_pos (by simp)]
        rw [List.filter_eq_nil_iff.mpr (fun b hb => by
          simpa using Nat.not_le.mpr (hkrest b hb))]
      rw [e1, e2]
    -- counting: the cumulative count at the threshold
    have hcount := sum_map_count_filter (distroKeys dice) (sums dice)
      (fun s => decide (t ≤ s)) (distroKeys_nodup dice) (mem_distroKeys dice)
    rw [hfilter, List.map_append, List.sum_append] at hcount
    have hpre_snd : pre.map Prod.snd = l1.map (fun s => (sums dice).count s) := by
      rw [← hl1, List.map_map]
      rfl
    have hcount2 : (sums dice).countP (fun s => decide (t ≤ s))
        = target_cases numerator denominator dice := by
      rw [← hcount, ← hsum, hpre_snd]
      have : f = (sums dice).count t := hf.symm
      simp [this]
    have hrollsP : (rolls dice).countP (fun r => decide (t ≤ r.sum))
        = (sums dice).countP (fun s => decide (t ≤ s)) := by
      rw [show sums dice = (rolls dice).map (fun r => r.sum) from rfl,
        List.countP_map]
      rfl
    refine ⟨hrt ▸ hbounds.1, hrt ▸ hbounds.2, hdvd, ?_, ?_, ?_⟩
    · rw [hrollsP, hcount2]
      rfl
    · have htot := sum_map_count_filter (distroKeys dice) (sums dice)
        (fun _ => true) (distroKeys_nodup dice) (mem_distroKeys dice)
      rw [List.filter_true] at htot
      have hmapsnd : (distroList dice).map Prod.snd
          = (distroKeys dice).map (fun s => (sums dice).count s) := by
        rw [show distroList dice
          = (distroKeys dice).map (fun s => (s, freq dice s)) from rfl,
          List.map_map]
        rfl
      rw [hmapsnd, htot, List.countP_true,
        show sums dice = (rolls dice).map (fun r => r.sum) from rfl,
        List.length_map, length_rolls]
    · intro q hq
      obtain ⟨s, hs, rfl⟩ := List.mem_map.mp hq
      obtain ⟨r1, hr1, hr1s⟩ := List.mem_map.mp ((mem_distroKeys dice s).mp hs)
      have hb := sum_bounds_of_mem_rolls dice r1 hr1
      exact ⟨hr1s ▸ hb.1, hr1s ▸ hb.2⟩

/-- Closed-form instance of `validate_distro_invariants`: two six-sided dice
with target fraction 1/6 and threshold 10 (a target small enough that the
program's float target coincides with the exact one). -/
theorem validate_distro_invariants_witness :
    ((∀ d ∈ [6, 6], 2 ≤ d) ∧ validate_distro 1 6 [6, 6] = some 10 ∧ (10 : ℕ) ≠ 0) ∧
      (([6, 6] : List ℕ).length ≤ 10 ∧ 10 ≤ ([6, 6] : List ℕ).sum ∧
        6 ∣ num_cases [6, 6] ∧
        (rolls [6, 6]).countP (fun r => 10 ≤ r.sum) = 1 * num_cases [6, 6] / 6 ∧
        ((distroList [6, 6]).map Prod.snd).sum = num_cases [6, 6] ∧
        ∀ q ∈ distroList [6, 6], ([6, 6] : List ℕ).length ≤ q.1 ∧
          q.1 ≤ ([6, 6] : List ℕ).sum) :=
  ⟨⟨by decide, by decide, by decide⟩,
    validate_distro_invariants 1 6 [6, 6] 10 (by decide) (by decide) (by decide)⟩

/-- Flattening singleton lists is mapping into singletons. -/
theorem flatMap_singleton_lists :
    ∀ l : List ℕ, l.flatMap (fun f => [[f]]) = l.map (fun f => [f]) := by
  intro l
  induction l with
  | nil => rfl
  | cons a l ih =>
    simp only [List.flatMap_cons, List.map_cons, ih]
    rfl

/-- The enumeration of a single die lists one singleton tuple per face. -/
theorem rolls_single (d : ℕ) : rolls [d] = (List.range' 1 d).map (fun f => [f]) :=
  flatMap_singleton_lists (List.range' 1 d)

/-- Counting the faces `1..d` at or above a threshold `t ≥ 1`. -/
theorem countP_range_from_one (t : ℕ) (h1 : 1 ≤ t) :
    ∀ d : ℕ, (List.range' 1 d).countP (fun f => decide (t ≤ f)) = d + 1 - t := by
  intro d
  induction d with
  | zero =>
    rw [List.range', List.countP_nil]
    omega
  | succ d ih =>
    rw [show List.range' 1 (d + 1) = List.range' 1 d ++ [1 + d] by
      simpa using @List.range'_concat 1 1 d]
    rw [List.countP_append, ih, List.countP_cons, List.countP_nil]
    simp only [decide_eq_true_eq]
    by_cases h : t ≤ 1 + d
    · rw [if_pos h]
      omega
    · rw [if_neg h]
      omega

/-- For a single die with `d` faces, the outcomes with sum at least `t ≥ 1`
number `d + 1 - t`. -/
theorem countP_rolls_single (d t : ℕ) (h1 : 1 ≤ t) :
    (rolls [d]).countP (fun r => t ≤ r.sum) = d + 1 - t := by
  rw [rolls_single, List.countP_map]
  exact countP_range_from_one t h1 d

/-- C9: for one die with `2 ^ 54` faces and target fraction
`(2 ^ 53 + 1) / 2 ^ 54`, the divisibility guard passes and the exact target
count is `2 ^ 53 + 1`, which is odd and exceeds `2 ^ 53`, so it equals no
IEEE double `m * 2 ^ e` with mantissa `m < 2 ^ 53`.  Python's float division
instead rounds it (ties-to-even) to the double `2 ^ 53`; the descending
scan's cumulative count — all counts are 1 — reaches `2 ^ 53` exactly when it
adds the key `2 ^ 53 + 1`, the int == float comparison succeeds, and the
program returns that non-zero threshold.  Yet the number of outcomes with sum
at least `2 ^ 53 + 1` is `2 ^ 53`, not the exact
`numerator * totalOutcomes / denominator = 2 ^ 53 + 1` the claim requires. -/
theorem validate_distro_float_target_mismatch :
    num_cases [2 ^ 54] % 2 ^ 54 = 0 ∧
      target_cases (2 ^ 53 + 1) (2 ^ 54) [2 ^ 54] = 2 ^ 53 + 1 ∧
      (∀ m e : ℕ, m < 2 ^ 53 → m * 2 ^ e ≠ 2 ^ 53 + 1) ∧
      (rolls [2 ^ 54]).countP (fun r => 2 ^ 53 + 1 ≤ r.sum) = 2 ^ 53 ∧
      (2 : ℕ) ^ 53 ≠ 2 ^ 53 + 1 := by
  refine ⟨?_, ?_, ?_, ?_, by norm_num⟩
  · show (1 * 2 ^ 54) % 2 ^ 54 = 0
    norm_num
  · show (2 ^ 53 + 1) * (1 * 2 ^ 54) / 2 ^ 54 = 2 ^ 53 + 1
    norm_num
  · intro m e hm heq
    cases e with
    | zero =>
      rw [pow_zero, mul_one] at heq
      norm_num at heq hm
      omega
    | succ e =>
      have hdvd : 2 ∣ 2 ^ 53 + 1 := ⟨m * 2 ^ e, by rw [← heq]; ring⟩
      have hmod : ((2 : ℕ) ^ 53 + 1) % 2 = 0 := Nat.dvd_iff_mod_eq_zero.mp hdvd
      have hodd : ((2 : ℕ) ^ 53 + 1) % 2 = 1 := by norm_num
      rw [hmod] at hodd
      exact absurd hodd (by norm_num)
  · rw [countP_rolls_single _ _ (by norm_num)]
    norm_num

/-! ### The combination generator -/

/-- `cwr` equation: size zero yields the one empty selection. -/
theorem cwr_zero (ds : List ℕ) : cwr ds 0 = [[]] := by
  cases ds <;> rfl

/-- `cwr` equation: no selection of positive size from an empty pool. -/
theorem cwr_nil_succ (n : ℕ) : cwr [] (n + 1) = [] := rfl

/-- `cwr` equation: selections from `a :: rest` either start with `a` or
avoid `a` entirely. -/
theorem cwr_cons_succ (a : ℕ) (rest : List ℕ) (n : ℕ) :
    cwr (a :: rest) (n + 1)
      = ((cwr (a :: rest) n).map (a :: ·)) ++ cwr rest (n + 1) := rfl

/-- Every generated selection has the requested size. -/
theorem length_of_mem_cwr :
    ∀ (ds : List ℕ) (n : ℕ) (l : List ℕ), l ∈ cwr ds n → l.length = n := by
  intro ds
  induction ds with
  | nil =>
    intro n l h
    cases n with
    | zero =>
      rw [cwr_zero, List.mem_singleton] at h
      subst h
      rfl
    | succ n => exact absurd h (by rw [cwr_nil_succ]; exact List.not_mem_nil l)
  | cons a rest ih =>
    intro n
    induction n with
    | zero =>
      intro l h
      rw [cwr_zero, List.mem_singleton] at h
      subst h
      rfl
    | succ n ihn =>
      intro l h
      rw [cwr_cons_succ] at h
      rcases List.mem_append.mp h with h | h
      · obtain ⟨l1, hl1, rfl⟩ := List.mem_map.mp h
        rw [List.length_cons, ihn l1 hl1]
      · exact ih (n + 1) l h

/-- For a strictly ascending pool, the generated selections are exactly the
non-decreasing lists of the requested size over the pool. -/
theorem mem_cwr :
    ∀ (ds : List ℕ), List.Pairwise (· < ·) ds → ∀ (n : ℕ) (l : List ℕ),
      l ∈ cwr ds n ↔
        l.length = n ∧ List.Sorted (· ≤ ·) l ∧ ∀ x ∈ l, x ∈ ds := by
  intro ds
  induction ds with
  | nil =>
    intro _ n l
    cases n with
    | zero =>
      rw [cwr_zero, List.mem_singleton]
      constructor
      · rintro rfl
        exact ⟨rfl, List.sorted_nil, by simp⟩
      · rintro ⟨hlen, _, _⟩
        exact List.eq_nil_of_length_eq_zero hlen
    | succ n =>
      rw [cwr_nil_succ]
      constructor
      · intro h
        exact absurd h (List.not_mem_nil l)
      · rintro ⟨hlen, _, hmem⟩
        cases l with
        | nil => exact absurd hlen (by simp)
        | cons x l1 => exact absurd (hmem x (List.mem_cons_self x l1)) (List.not_mem_nil x)
  | cons a rest ih =>
    intro hpw
    have hrest : List.Pairwise (· < ·) rest := (List.pairwise_cons.mp hpw).2
    have harest : ∀ b ∈ rest, a < b := (List.pairwise_cons.mp hpw).1
    intro n
    induction n with
    | zero =>
      intro l
      rw [cwr_zero, List.mem_singleton]
      constructor
      · rintro rfl
        exact ⟨rfl, List.sorted_nil, by simp⟩
      · rintro ⟨hlen, _, _⟩
        exact List.eq_nil_of_length_eq_zero hlen
    | succ n ihn =>
      intro l
      rw [cwr_cons_succ, List.mem_append]
      constructor
      · rintro (h | h)
        · obtain ⟨l1, hl1, rfl⟩ := List.mem_map.mp h
          obtain ⟨hlen, hsort, hmem⟩ := (ihn l1).mp hl1
          refine ⟨by rw [List.length_cons, hlen], ?_, ?_⟩
          · rw [List.sorted_cons]
            refine ⟨fun b hb => ?_, hsort⟩
            rcases List.mem_cons.mp (hmem b hb) with rfl | hbr
            · exact le_refl b
            · exact le_of_lt (harest b hbr)
          · intro x hx
            rcases List.mem_cons.mp hx with rfl | hxl
            · exact List.mem_cons_self _ _
            · exact hmem x hxl
        · obtain ⟨hlen, hsort, hmem⟩ := (ih hrest (n + 1) l).mp h
          exact ⟨hlen, hsort, fun x hx => List.mem_cons_of_mem a (hmem x hx)⟩
      · rintro ⟨hlen, hsort, hmem⟩
        cases l with
        | nil => exact absurd hlen (by simp)
        | cons x l1 =>
          have hxl : ∀ b ∈ l1, x ≤ b := (List.sorted_cons.mp hsort).1
          have hsort1 : List.Sorted (· ≤ ·) l1 := (List.sorted_cons.mp hsort).2
          rcases List.mem_cons.mp (hmem x (List.mem_cons_self x l1)) with rfl | hxr
          · left
            refine List.mem_map.mpr ⟨l1, (ihn l1).mpr ⟨?_, hsort1, ?_⟩, rfl⟩
            · simpa using hlen
            · exact fun b hb => hmem b (List.mem_cons_of_mem x hb)
          · right
            refine (ih hrest (n + 1) (x :: l1)).mpr ⟨hlen, hsort, ?_⟩
            intro b hb
            rcases List.mem_cons.mp hb with rfl | hbl
            · exact hxr
            · rcases List.mem_cons.mp (hmem b (List.mem_cons_of_mem x hbl)) with rfl | hbr
              · exact absurd (lt_of_lt_of_le (harest x hxr) (hxl b hbl)) (lt_irrefl b)
              · exact hbr

/-- Membership in a size pass: exactly the generated combinations whose
`validate_distro` value is truthy, paired with that value. -/
theorem mem_solutionsAt (numerator denominator : ℕ) (ds : List ℕ) (N : ℕ)
    (q : List ℕ × ℕ) :
    q ∈ solutionsAt numerator denominator ds N ↔
      q.1 ∈ cwr ds N ∧ validate_distro numerator denominator q.1 = some q.2 ∧
        q.2 ≠ 0 := by
  rw [solutionsAt, List.mem_filterMap]
  constructor
  · rintro ⟨dice, hmem, hf⟩
    rcases hval : validate_distro numerator denominator dice with _ | v
    · rw [hval] at hf
      have hf2 : (none : Option (List ℕ × ℕ)) = some q := hf
      exact absurd hf2 (by simp)
    · rw [hval] at hf
      have hf2 : (if v = 0 then none else some (dice, v)) = some q := hf
      by_cases hv0 : v = 0
      · rw [if_pos hv0] at hf2
        exact absurd hf2 (by simp)
      · rw [if_neg hv0] at hf2
        obtain rfl := Option.some_inj.mp hf2
        exact ⟨hmem, hval, hv0⟩
  · rintro ⟨hmem, hval, hq2⟩
    refine ⟨q.1, hmem, ?_⟩
    rw [hval]
    show (if q.2 = 0 then none else some (q.1, q.2)) = some q
    rw [if_neg hq2]

/-- The search loop either exhausts its fuel with every visited size empty, or
stops at the first visited size with solutions and returns that size's list. -/
theorem findDiceAux_spec (numerator denominator : ℕ) (ds : List ℕ) :
    ∀ (fuel N : ℕ),
      (findDiceAux numerator denominator ds fuel N = [] ∧
        ∀ M, N ≤ M → M < N + fuel → solutionsAt numerator denominator ds M = []) ∨
      (∃ M, N ≤ M ∧ M < N + fuel ∧
        solutionsAt numerator denominator ds M ≠ [] ∧
        (∀ M2, N ≤ M2 → M2 < M → solutionsAt numerator denominator ds M2 = []) ∧
        findDiceAux numerator denominator ds fuel N
          = solutionsAt numerator denominator ds M) := by
  intro fuel
  induction fuel with
  | zero =>
    intro N
    left
    exact ⟨rfl, fun M h1 h2 => absurd h2 (by omega)⟩
  | succ fuel ih =>
    intro N
    rw [findDiceAux]
    by_cases h : solutionsAt numerator denominator ds N = []
    · rw [if_pos h]
      rcases ih (N + 1) with ⟨he, hall⟩ | ⟨M, h1, h2, h3, h4, h5⟩
      · left
        refine ⟨he, fun M hm1 hm2 => ?_⟩
        by_cases hM : M = N
        · rw [hM]; exact h
        · exact hall M (by omega) (by omega)
      · right
        refine ⟨M, by omega, by omega, h3, fun M2 hm1 hm2 => ?_, h5⟩
        by_cases hM : M2 = N
        · rw [hM]; exact h
        · exact h4 M2 (by omega) hm2
    · right
      exact ⟨N, le_refl N, by omega, h,
        fun M2 hm1 hm2 => absurd hm2 (by omega), by rw [if_neg h]⟩

/-- C1: `find_dice` iterates sizes 1 to `limit`; the result is empty exactly
when every size up to `limit` has no solution, and otherwise equals the full
solution list of the smallest successful size: all returned combinations have
that size, and every non-decreasing selection of that size from the
(strictly ascending) die set with a truthy threshold is included. -/
theorem find_dice_minimal_size (numerator denominator limit : ℕ) (ds : List ℕ)
    (hds : List.Pairwise (· < ·) ds) :
    (find_dice numerator denominator ds limit = [] ∧
      ∀ N, 1 ≤ N → N ≤ limit → solutionsAt numerator denominator ds N = []) ∨
    (∃ N, 1 ≤ N ∧ N ≤ limit ∧
      find_dice numerator denominator ds limit
        = solutionsAt numerator denominator ds N ∧
      find_dice numerator denominator ds limit ≠ [] ∧
      (∀ M, 1 ≤ M → M < N → solutionsAt numerator denominator ds M = []) ∧
      (∀ q ∈ find_dice numerator denominator ds limit, (q.1).length = N) ∧
      (∀ l : List ℕ, l.length = N → List.Sorted (· ≤ ·) l → (∀ x ∈ l, x ∈ ds) →
        ∀ v, validate_distro numerator denominator l = some v → v ≠ 0 →
          (l, v) ∈ find_dice numerator denominator ds limit)) := by
  rcases findDiceAux_spec numerator denominator ds limit 1 with ⟨he, hall⟩ |
    ⟨M, h1, h2, h3, h4, h5⟩
  · left
    exact ⟨he, fun N hn1 hn2 => hall N hn1 (by omega)⟩
  · right
    refine ⟨M, h1, by omega, h5, by rw [find_dice, h5]; exact h3,
      fun M2 hm1 hm2 => h4 M2 hm1 hm2, ?_, ?_⟩
    · intro q hq
      rw [find_dice, h5] at hq
      exact length_of_mem_cwr ds M q.1
        ((mem_solutionsAt numerator denominator ds M q).mp hq).1
    · intro l hlen hsort hmem v hval hv
      rw [find_dice, h5]
      exact (mem_solutionsAt numerator denominator ds M (l, v)).mpr
        ⟨(mem_cwr ds hds M l).mpr ⟨hlen, hsort, hmem⟩, hval, hv⟩

/-- Closed-form witness for `find_dice_minimal_size`: the two-sided die search
for target fraction 1/2 with limit 5. -/
theorem find_dice_minimal_size_witness :
    List.Pairwise (· < ·) ([2] : List ℕ) ∧
      ((find_dice 1 2 [2] 5 = [] ∧
        ∀ N, 1 ≤ N → N ≤ 5 → solutionsAt 1 2 [2] N = []) ∨
      (∃ N, 1 ≤ N ∧ N ≤ 5 ∧
        find_dice 1 2 [2] 5 = solutionsAt 1 2 [2] N ∧
        find_dice 1 2 [2] 5 ≠ [] ∧
        (∀ M, 1 ≤ M → M < N → solutionsAt 1 2 [2] M = []) ∧
        (∀ q ∈ find_dice 1 2 [2] 5, (q.1).length = N) ∧
        (∀ l : List ℕ, l.length = N → List.Sorted (· ≤ ·) l →
          (∀ x ∈ l, x ∈ ([2] : List ℕ)) →
          ∀ v, validate_distro 1 2 l = some v → v ≠ 0 →
            (l, v) ∈ find_dice 1 2 [2] 5))) :=
  ⟨by decide, find_dice_minimal_size 1 2 5 [2] (by decide)⟩

end DiceModeler
